import Mathlib

/-!
Verification of the chunking and summarize-then-synthesize core of the
`lit-llmed` repository (`chunked_processor.py`).

The Python code is shallowly embedded: strings are modelled as `String` /
`List Char`, `str.split()` / `str.strip()` / `str.split(sep)` and the
`re.split(r'\n\s*\n', ...)` paragraph splitter are given executable
translations, and the `ChunkedProcessor` methods become Lean functions.
The model client (Ollama HTTP) is a collaborator and is modelled as an
oracle `String → Option String` from prompt to response.  The two source
loops that are not structurally recursive (`_split_long_content` and the
regex scan) are embedded with an explicit fuel argument; the supplied
fuel is always sufficient (proved by the fuel-irrelevance theorems).
-/

/-- Python `\s` for ASCII: the whitespace class used by `str.split()`,
`str.strip()` and the `re` module. -/
def pyWs (c : Char) : Bool :=
  c = ' ' || c = '\t' || c = '\n' || c = '\r' || c = '\x0b' || c = '\x0c'

/-- Accumulating worker for Python `str.split()`: `cur` is the reversed
partial word being scanned. -/
def wordsAux (cur : List Char) : List Char → List (List Char)
  | [] => if cur = [] then [] else [cur.reverse]
  | c :: cs =>
    if pyWs c then
      if cur = [] then wordsAux [] cs else cur.reverse :: wordsAux [] cs
    else wordsAux (c :: cur) cs

/-- Python `str.split()` (no argument): split on whitespace runs, dropping
empty pieces. -/
def wordsChars (l : List Char) : List (List Char) := wordsAux [] l

/-- Python `' '.join(ws)`. -/
def sjoin : List (List Char) → List Char
  | [] => []
  | [w] => w
  | w :: x :: ws => w ++ ' ' :: sjoin (x :: ws)

/-- Python `sep.join(l)` at `String` level. -/
def joinSep (sep : String) : List String → String
  | [] => ""
  | [x] => x
  | x :: y :: r => x ++ sep ++ joinSep sep (y :: r)

/-- Drop trailing Python whitespace. -/
def dropTrail (l : List Char) : List Char := (l.reverse.dropWhile pyWs).reverse

/-- Python `str.strip()`. -/
def stripChars (l : List Char) : List Char := dropTrail (l.dropWhile pyWs)

/-- Python `text.split('\n')`: split on each newline, keeping empty lines. -/
def splitNl : List Char → List (List Char)
  | [] => [[]]
  | c :: cs =>
    match splitNl cs with
    | [] => [[c]]
    | l :: ls => if c = '\n' then [] :: l :: ls else (c :: l) :: ls

/-- Python `str.upper()` for ASCII. -/
def pyUpper (l : List Char) : List Char := l.map Char.toUpper

/-- Python `line.endswith(c)` for a single character. -/
def endsWithChar (l : List Char) (c : Char) : Bool :=
  match l.getLast? with
  | some d => d == c
  | none => false

/-- The header heuristic of `split_into_chunks` (lines 52-59 of
`chunked_processor.py`): short line, < 100 chars, no trailing `.`/`,`,
not identical to its upper-casing, and containing an upper-case char. -/
def is_potential_header (line : List Char) : Bool :=
  decide ((wordsChars line).length ≤ 8) && decide (line.length < 100) &&
  !(endsWithChar line '.') && !(endsWithChar line ',') &&
  !(line == pyUpper line) && line.any Char.isUpper

/-- A section produced by the header pass or the paragraph fallback:
`{'header': ..., 'content': ...}`. -/
structure PSection where
  header : List Char
  content : List Char
deriving DecidableEq, Repr

/-- A chunk as built by `split_into_chunks` / `_split_long_content`. -/
structure Chunk where
  chunk_id : Nat
  header : List Char
  content : List Char
  word_count : Nat
deriving DecidableEq, Repr

/-- One iteration of the header-detection loop of `split_into_chunks`
(lines 46-69): state is `(sections, current_section)`. -/
def headerStep (st : List PSection × List (List Char)) (rawLine : List Char) :
    List PSection × List (List Char) :=
  let line := stripChars rawLine
  if line = [] then st
  else if is_potential_header line && !(st.2 == []) &&
      decide (50 < (wordsChars (sjoin st.2)).length) then
    (st.1 ++ [⟨line, stripChars (sjoin st.2)⟩], [])
  else (st.1, st.2 ++ [line])

/-- The header-detection pass over all lines. -/
def header_sections (text : List Char) : List PSection × List (List Char) :=
  (splitNl text).foldl headerStep ([], [])

/-- Sections after the header pass, including the trailing
"Final Section" (lines 71-76). -/
def sectionsOf (text : List Char) : List PSection :=
  let st := header_sections text
  if st.2 = [] then st.1
  else st.1 ++ [⟨("Final Section").data, stripChars (sjoin st.2)⟩]

/-- Greedy suffix of a `\s` run after its last newline: `lastNlSplit run`
returns the part of `run` after its final `'\n'`, if it has one. -/
def lastNlSplit : List Char → Option (List Char)
  | [] => none
  | c :: cs =>
    match lastNlSplit cs with
    | some r => some r
    | none => if c = '\n' then some cs else none

/-- Greedy match of `\s*\n` (the tail of the pattern `\n\s*\n`) at the
start of `l`: returns the remainder after the match. -/
def blankMatch (l : List Char) : Option (List Char) :=
  match lastNlSplit (l.takeWhile pyWs) with
  | some r => some (r ++ l.dropWhile pyWs)
  | none => none

/-- `re.split(r'\n\s*\n', text)`: scan left to right; at each `'\n'` try
the greedy `\s*\n` continuation; on a match close the current piece.
The scan consumes at least one character per step, so a fuel of
`l.length` always suffices (the fuel-0 case is unreachable then; see
`paraSplitFuel_irrel`). -/
def paraSplitFuel : Nat → List Char → List Char → List (List Char)
  | _, cur, [] => [cur.reverse]
  | 0, cur, _ :: _ => [cur.reverse]
  | fuel + 1, cur, c :: cs =>
    if c = '\n' then
      match blankMatch cs with
      | some rest => cur.reverse :: paraSplitFuel fuel [] rest
      | none => paraSplitFuel fuel (c :: cur) cs
    else paraSplitFuel fuel (c :: cur) cs

/-- `re.split(r'\n\s*\n', text)`. -/
def paraSplit (text : List Char) : List (List Char) :=
  paraSplitFuel text.length [] text

/-- The paragraph fallback sections (lines 79-82): enumerate the regex
split pieces, keep the non-blank ones, label by original index. -/
def paraSections (text : List Char) : List PSection :=
  (paraSplit text).enum.filterMap fun p =>
    if stripChars p.2 = [] then none
    else some ⟨("Section " ++ toString (p.1 + 1)).data, stripChars p.2⟩

/-- `self.max_chunk_size` (line 17). -/
def max_chunk_size : Nat := 800

/-- `self.overlap_size` (line 18). -/
def overlap_size : Nat := 100

/-- The cursor advance of `_split_long_content` (line 125):
`max(start_idx + max_chunk_size - overlap_size, start_idx + 1)`.
Python int subtraction and truncated Nat subtraction agree here
because both sides are compared with `s + 1 ≥ 1` by `max`. -/
def nextStart (maxc ov s : Nat) : Nat := max (s + maxc - ov) (s + 1)

/-- The `f"{base_header} (Part {chunk_num})"` suffix. -/
def partLabel (num : Nat) : List Char := (" (Part " ++ toString num ++ ")").data

/-- The while loop of `_split_long_content` (lines 111-126): `s` is the
cursor, `cid` the local `len(chunks)`, `num` the part number.  The
cursor advances by at least 1 per iteration, so a fuel of
`ws.length - s` always suffices (`splitLongFuel_irrel`). -/
def splitLongFuel (ws : List (List Char)) (maxc ov : Nat) (bh : List Char) :
    Nat → Nat → Nat → Nat → List Chunk
  | 0, _, _, _ => []
  | fuel + 1, s, cid, num =>
    if s < ws.length then
      let cw := (ws.drop s).take maxc
      let c : Chunk := ⟨cid, bh ++ partLabel num, sjoin cw, cw.length⟩
      if ws.length ≤ s + maxc then [c]
      else c :: splitLongFuel ws maxc ov bh fuel (nextStart maxc ov s) (cid + 1) (num + 1)
    else []

/-- `_split_long_content(content, base_header)` (lines 104-128). -/
def split_long_content (content : List Char) (base_header : List Char) : List Chunk :=
  let ws := wordsChars content
  splitLongFuel ws max_chunk_size overlap_size base_header ws.length 0 0 1

/-- One iteration of the size-enforcement loop of `split_into_chunks`
(lines 86-100). -/
def chunkStep (acc : List Chunk) (sec : PSection) : List Chunk :=
  let ws := wordsChars sec.content
  if ws.length ≤ max_chunk_size then
    acc ++ [⟨acc.length, sec.header, sec.content, ws.length⟩]
  else acc ++ split_long_content sec.content sec.header

/-- The size-enforcement loop of `split_into_chunks` (lines 85-101). -/
def chunksOfSections (secs : List PSection) : List Chunk :=
  secs.foldl chunkStep []

/-- `split_into_chunks(text)` (lines 38-102). -/
def split_into_chunks (text : String) : List Chunk :=
  let secs0 := sectionsOf text.data
  let secs := if secs0.length ≤ 1 then paraSections text.data else secs0
  chunksOfSections secs

/-- The word list of a chunk's stored content. -/
def chunkWords (c : Chunk) : List (List Char) := wordsChars c.content

/-- The size invariant of a chunk (claim C1): the cached word count is
the word count of the content and does not exceed the maximum. -/
def chunkOk (c : Chunk) : Prop :=
  c.word_count = (chunkWords c).length ∧ c.word_count ≤ max_chunk_size

/-- Words that `str.split()` can produce: non-empty and whitespace-free. -/
def wordsOk (ws : List (List Char)) : Prop :=
  ∀ w ∈ ws, w ≠ [] ∧ ∀ c ∈ w, pyWs c = false

/-- The prompt built by `summarize_chunk` (lines 132-144). -/
def chunkPrompt (chunk : Chunk) : String :=
  "Summarize this section from an academic paper. Be specific and focus on key information.\n\nSection: "
  ++ String.mk chunk.header
  ++ "\n\nContent:\n" ++ String.mk chunk.content
  ++ "\n\nProvide a concise summary (3-5 sentences) focusing on:\n- Main points or findings\n- Key concepts or methods\n- Important data or conclusions\n\nSummary:"

/-- `summarize_chunk` (lines 130-152): build the prompt and delegate to
the model client.  The source also receives a `paper_type` argument that
only selects a config it never uses in the prompt; it is omitted. -/
def summarize_chunk (llm : String → Option String) (chunk : Chunk) : Option String :=
  llm (chunkPrompt chunk)

/-- `"\n\n".join([f"Section {i+1}: {summary}" ...])` (lines 158-159). -/
def combined_summaries (chunk_summaries : List String) : String :=
  joinSep "\n\n" (chunk_summaries.enum.map fun p =>
    "Section " ++ toString (p.1 + 1) ++ ": " ++ p.2)

/-- The synthesis prompt of `synthesize_summaries` (lines 161-188). -/
def synthesis_prompt (chunk_summaries : List String) (title : String) : String :=
  "You have summaries from different sections of an academic paper titled \""
  ++ title
  ++ "\". \nCreate a comprehensive structured note by synthesizing these section summaries.\n\nSection Summaries:\n"
  ++ combined_summaries chunk_summaries
  ++ "\n\nBased on these summaries, create structured notes following this format:\n\n## Summary\n- Overall summary of the paper (2-3 sentences)\n\n## Key Findings\n- Main findings across all sections (bullet points)\n\n## Main Concepts\n- Important concepts, theories, or methods mentioned\n\n## Methodology (if mentioned)\n- Research methods or approaches used\n\n## Implications\n- Practical or theoretical implications\n- Future research directions if mentioned\n\n## Tags\n- Relevant tags using #tag format\n\nGenerate the structured note:"

/-- `synthesize_summaries` (lines 154-196), delegating to the model
client.  Its unused `paper_type` config lookup is omitted. -/
def synthesize_summaries (llm : String → Option String)
    (chunk_summaries : List String) (title : String) : Option String :=
  llm (synthesis_prompt chunk_summaries title)

/-- Result dictionary of `process_pdf_chunked` (lines 264-269). -/
structure ProcessResult where
  title : String
  chunks_processed : Nat
  successful_summaries : Nat
  final_content : String
deriving DecidableEq, Repr

/-- The chunk-summarization loop of `process_pdf_chunked` (lines
215-222): successful summaries are appended, failures are skipped. -/
def collectSummaries (llm : String → Option String) (chunks : List Chunk) : List String :=
  chunks.foldl (fun acc chunk =>
    match summarize_chunk llm chunk with
    | some summary => acc ++ [summary]
    | none => acc) []

/-- `process_pdf_chunked` (lines 198-271): `extracted` is the result of
the text-extractor collaborator; file writing is a collaborator effect,
the returned value mirrors the result dictionary (absent on failure). -/
def process_pdf_chunked (llm : String → Option String)
    (extracted : Option String) (title : String) : Option ProcessResult :=
  match extracted with
  | none => none
  | some text =>
    if text = "" then none
    else
      let chunks := split_into_chunks text
      let chunk_summaries := collectSummaries llm chunks
      if chunk_summaries = [] then none
      else
        match synthesize_summaries llm chunk_summaries title with
        | some final_content =>
          some ⟨title, chunks.length, chunk_summaries.length, final_content⟩
        | none => none

/-- One record of the debug artifact of `process_pdf_chunked` (lines
258-262): header, word count, and `chunk_summaries[i]` when
`i < len(chunk_summaries)`, else the marker `'FAILED'`. -/
def debug_records (chunks : List Chunk) (chunk_summaries : List String) :
    List (List Char × Nat × String) :=
  chunks.enum.map fun p =>
    (p.2.header, p.2.word_count,
     if h : p.1 < chunk_summaries.length then chunk_summaries.get ⟨p.1, h⟩
     else "FAILED")

/-- Bool test: does `n` match the first `n.length` characters of `h`? -/
def subListAt : List Char → List Char → Bool
  | [], _ => true
  | _ :: _, [] => false
  | a :: n, b :: h => a == b && subListAt n h

/-- Bool test: does `n` occur contiguously inside `h`? -/
def containsSub (n : List Char) : List Char → Bool
  | [] => n == []
  | c :: h => subListAt n (c :: h) || containsSub n h

/-- Substring test on `String`s. -/
def strContains (hay needle : String) : Bool := containsSub needle.data hay.data

/-- Claim C2 as a predicate on `_split_long_content`: the result is
non-empty, every word of the input occurs in some chunk, consecutive
chunks share `overlap_size` words (the trailing words of one are the
leading words of the next), and the last chunk ends with the last word. -/
def OverlapSplitSpec (content bh : List Char) : Prop :=
  split_long_content content bh ≠ [] ∧
  (∀ (i : Nat) (hi : i < (wordsChars content).length),
    ∃ c ∈ split_long_content content bh,
      (wordsChars content).get ⟨i, hi⟩ ∈ chunkWords c) ∧
  (∀ (k : Nat) (c1 c2 : Chunk),
    (split_long_content content bh)[k]? = some c1 →
    (split_long_content content bh)[k + 1]? = some c2 →
    overlap_size ≤ (chunkWords c1).length ∧
    (chunkWords c1).drop ((chunkWords c1).length - overlap_size)
      = (chunkWords c2).take overlap_size) ∧
  (∃ c, (split_long_content content bh).getLast? = some c ∧
    (chunkWords c).getLast? = (wordsChars content).getLast?)

/-- A concrete oversized content: 801 copies of the word `w`. -/
def content801 : List Char := sjoin (List.replicate 801 ("w").data)

/-- A 60-word line of `a`s (no header-like shape, more than 50 words). -/
def l60 : List Char := (joinSep " " (List.replicate 60 "a")).data

/-- Input exercising the header-closing branch: a 60-word body line, a
header-like line `Methods`, then more body text. -/
def t5 : String := joinSep " " (List.replicate 60 "a") ++ "\nMethods\nb b"

/-- A two-paragraph input: splits into the chunks `Section 1`/`one` and
`Section 2`/`two` via the fallback. -/
def t6 : String := "one\n\ntwo"

/-- The first chunk produced for `t6`. -/
def t6chunk0 : Chunk := ⟨0, ("Section 1").data, ("one").data, 1⟩

/-- The second chunk produced for `t6`. -/
def t6chunk1 : Chunk := ⟨1, ("Section 2").data, ("two").data, 1⟩

/-- A model oracle that fails on the first chunk of `t6` and answers
`S` to every other prompt. -/
def llm6 : String → Option String :=
  fun p => if p = chunkPrompt t6chunk0 then none else some "S"

/-- A model oracle that answers `S2` to the summarization prompt of the
second chunk of `t6` and fails on every other prompt. -/
def llm9 : String → Option String :=
  fun p => if p = chunkPrompt t6chunk1 then some "S2" else none

/-- The word `word` of the C3 example input. -/
def wd : List Char := ("word").data

/-- The word `end` of the C3 example input. -/
def ed : List Char := ("end").data

/-- The 901 words of the second paragraph of the C3 example input. -/
def ws901 : List (List Char) := List.replicate 900 wd ++ [ed]

/-- The second paragraph of the C3 example input. -/
def bodyLine : List Char := sjoin ws901

/-- The C3 example input: `"Intro\n\n"` followed by 900 repetitions of
the word `word` followed by `" end"`. -/
def ex3 : String := "Intro\n\n" ++ joinSep " " (List.replicate 900 "word") ++ " end"

/-! ### Lemmas about `wordsAux` / `wordsChars` -/

theorem wordsAux_sound : ∀ (l cur : List Char), (∀ c ∈ cur, pyWs c = false) →
    ∀ w ∈ wordsAux cur l, w ≠ [] ∧ ∀ c ∈ w, pyWs c = false := by
  intro l
  induction l with
  | nil =>
    intro cur hcur w hw
    simp only [wordsAux] at hw
    by_cases h : cur = []
    · simp [h] at hw
    · simp only [if_neg h, List.mem_singleton] at hw
      subst hw
      refine ⟨by simpa using h, ?_⟩
      intro c hc
      exact hcur c (List.mem_reverse.mp hc)
  | cons c cs ih =>
    intro cur hcur w hw
    simp only [wordsAux] at hw
    by_cases hws : pyWs c
    · simp only [if_pos hws] at hw
      by_cases h : cur = []
      · simp only [if_pos h] at hw
        exact ih [] (by simp) w hw
      · simp only [if_neg h, List.mem_cons] at hw
        rcases hw with hw | hw
        · subst hw
          refine ⟨by simpa using h, ?_⟩
          intro d hd
          exact hcur d (List.mem_reverse.mp hd)
        · exact ih [] (by simp) w hw
    · simp only [if_neg hws] at hw
      refine ih (c :: cur) ?_ w hw
      intro d hd
      rcases List.mem_cons.mp hd with rfl | hd
      · simpa using hws
      · exact hcur d hd

theorem wordsChars_ok (l : List Char) : wordsOk (wordsChars l) := by
  intro w hw
  exact wordsAux_sound l [] (by simp) w hw

theorem wordsAux_nonws_lead : ∀ (w cur l : List Char), (∀ c ∈ w, pyWs c = false) →
    wordsAux cur (w ++ l) = wordsAux (w.reverse ++ cur) l := by
  intro w
  induction w with
  | nil => intro cur l _; simp
  | cons c w' ih =>
    intro cur l hw
    have hc : pyWs c = false := hw c (by simp)
    show wordsAux cur (c :: (w' ++ l)) = _
    rw [show wordsAux cur (c :: (w' ++ l)) = wordsAux (c :: cur) (w' ++ l) by
      simp [wordsAux, hc]]
    rw [ih (c :: cur) l (fun d hd => hw d (by simp [hd]))]
    simp [List.append_assoc]

theorem wordsAux_nil_of_ws : ∀ (t : List Char), (∀ c ∈ t, pyWs c = true) →
    wordsAux [] t = [] := by
  intro t
  induction t with
  | nil => simp [wordsAux]
  | cons c t' ih =>
    intro ht
    have hc : pyWs c = true := ht c (by simp)
    simp only [wordsAux, hc, if_true, if_pos rfl]
    exact ih (fun d hd => ht d (by simp [hd]))

theorem wordsAux_ws_append : ∀ (l cur t : List Char), (∀ c ∈ t, pyWs c = true) →
    wordsAux cur (l ++ t) = wordsAux cur l := by
  intro l
  induction l with
  | nil =>
    intro cur t ht
    cases t with
    | nil => rfl
    | cons d t' =>
      have hd : pyWs d = true := ht d (by simp)
      simp only [List.nil_append, wordsAux, hd, if_true]
      rw [wordsAux_nil_of_ws t' (fun e he => ht e (by simp [he]))]
  | cons c cs ih =>
    intro cur t ht
    show wordsAux cur (c :: (cs ++ t)) = wordsAux cur (c :: cs)
    by_cases hc : pyWs c
    · by_cases hcur : cur = []
      · subst hcur
        simp only [wordsAux, hc, if_true, if_pos rfl]
        exact ih [] t ht
      · simp only [wordsAux, hc, if_true, if_neg hcur]
        rw [ih [] t ht]
    · simp only [wordsAux, hc, Bool.false_eq_true, if_false]
      exact ih (c :: cur) t ht

theorem sjoin_roundtrip : ∀ (ws : List (List Char)), wordsOk ws →
    wordsChars (sjoin ws) = ws := by
  intro ws
  induction ws with
  | nil => intro _; rfl
  | cons w ws' ih =>
    intro hok
    have hw := hok w (by simp)
    cases ws' with
    | nil =>
      show wordsAux [] (sjoin [w]) = [w]
      have h1 : sjoin [w] = w ++ [] := by simp [sjoin]
      rw [h1, wordsAux_nonws_lead w [] [] hw.2]
      simp [wordsAux, hw.1]
    | cons x ws'' =>
      show wordsAux [] (sjoin (w :: x :: ws'')) = w :: x :: ws''
      rw [show sjoin (w :: x :: ws'') = w ++ ' ' :: sjoin (x :: ws'') from rfl]
      rw [wordsAux_nonws_lead w [] _ hw.2]
      have hrev : w.reverse ++ [] ≠ [] := by simp [hw.1]
      simp only [wordsAux, show pyWs ' ' = true from rfl, if_true, if_neg hrev]
      simp only [List.append_nil, List.reverse_reverse]
      have h2 := ih (fun v hv => hok v (by simp [hv]))
      rw [show wordsAux [] (sjoin (x :: ws'')) = wordsChars (sjoin (x :: ws'')) from rfl, h2]

theorem wordsChars_dropWhile (l : List Char) :
    wordsChars (l.dropWhile pyWs) = wordsChars l := by
  induction l with
  | nil => rfl
  | cons c cs ih =>
    by_cases hc : pyWs c
    · rw [List.dropWhile_cons_of_pos hc]
      rw [ih]
      show wordsChars cs = wordsAux [] (c :: cs)
      simp [wordsAux, hc, wordsChars]
    · rw [List.dropWhile_cons_of_neg (by simp [hc])]

theorem dropTrail_decomp (m : List Char) :
    m = dropTrail m ++ (m.reverse.takeWhile pyWs).reverse := by
  have h : m.reverse.takeWhile pyWs ++ m.reverse.dropWhile pyWs = m.reverse :=
    List.takeWhile_append_dropWhile pyWs m.reverse
  calc m = m.reverse.reverse := by simp
    _ = (m.reverse.takeWhile pyWs ++ m.reverse.dropWhile pyWs).reverse := by rw [h]
    _ = (m.reverse.dropWhile pyWs).reverse ++ (m.reverse.takeWhile pyWs).reverse := by
        rw [List.reverse_append]
    _ = dropTrail m ++ (m.reverse.takeWhile pyWs).reverse := rfl

theorem wordsChars_dropTrail (m : List Char) :
    wordsChars (dropTrail m) = wordsChars m := by
  conv_rhs => rw [dropTrail_decomp m]
  exact (wordsAux_ws_append (dropTrail m) []
    ((m.reverse.takeWhile pyWs).reverse)
    (fun c hc => List.mem_takeWhile_imp (List.mem_reverse.mp hc))).symm

theorem wordsChars_strip (l : List Char) :
    wordsChars (stripChars l) = wordsChars l := by
  unfold stripChars
  rw [wordsChars_dropTrail, wordsChars_dropWhile]

/-! ### Lemmas about `stripChars` -/

theorem stripChars_eq_nil_of_all_ws {l : List Char} (h : ∀ c ∈ l, pyWs c = true) :
    stripChars l = [] := by
  unfold stripChars
  rw [List.dropWhile_eq_nil_iff.mpr h]
  rfl

theorem all_ws_of_stripChars_eq_nil {l : List Char} (h : stripChars l = []) :
    ∀ c ∈ l, pyWs c = true := by
  unfold stripChars dropTrail at h
  rw [List.reverse_eq_nil_iff] at h
  have h2 : ∀ c ∈ (l.dropWhile pyWs).reverse, pyWs c = true :=
    List.dropWhile_eq_nil_iff.mp h
  have h3 : ∀ c ∈ l.dropWhile pyWs, pyWs c = true :=
    fun c hc => h2 c (List.mem_reverse.mpr hc)
  intro c hc
  rw [← List.takeWhile_append_dropWhile pyWs l] at hc
  rcases List.mem_append.mp hc with hc | hc
  · exact List.mem_takeWhile_imp hc
  · exact h3 c hc

theorem stripChars_eq_self {l : List Char}
    (hhead : ∀ a, l.head? = some a → pyWs a = false)
    (hlast : ∀ a, l.getLast? = some a → pyWs a = false) :
    stripChars l = l := by
  cases l with
  | nil => rfl
  | cons c cs =>
    have hc : pyWs c = false := hhead c rfl
    unfold stripChars
    rw [List.dropWhile_cons_of_neg (by simp [hc])]
    unfold dropTrail
    cases hr : (c :: cs).reverse with
    | nil => exact absurd hr (by simp)
    | cons d rs =>
      have hd : (c :: cs).getLast? = some d := by
        rw [List.getLast?_eq_head?_reverse, hr]; rfl
      rw [List.dropWhile_cons_of_neg (by simp [hlast d hd])]
      rw [← hr, List.reverse_reverse]

/-! ### Lemmas about `splitNl` -/

theorem splitNl_ne_nil : ∀ (l : List Char), splitNl l ≠ [] := by
  intro l
  cases l with
  | nil => simp [splitNl]
  | cons c cs =>
    simp only [splitNl]
    cases splitNl cs with
    | nil => simp
    | cons a as => by_cases hc : c = '\n' <;> simp [hc]

theorem splitNl_no_nl : ∀ {l : List Char}, (∀ c ∈ l, c ≠ '\n') → splitNl l = [l] := by
  intro l
  induction l with
  | nil => intro _; rfl
  | cons c cs ih =>
    intro h
    have hc : c ≠ '\n' := h c (by simp)
    simp only [splitNl, ih (fun d hd => h d (by simp [hd])), if_neg hc]

theorem splitNl_append_nl : ∀ (l1 l2 : List Char), (∀ c ∈ l1, c ≠ '\n') →
    splitNl (l1 ++ '\n' :: l2) = l1 :: splitNl l2 := by
  intro l1
  induction l1 with
  | nil =>
    intro l2 _
    simp only [List.nil_append, splitNl]
    cases h : splitNl l2 with
    | nil => exact absurd h (splitNl_ne_nil l2)
    | cons a as => simp
  | cons c l1' ih =>
    intro l2 h
    have hc : c ≠ '\n' := h c (by simp)
    show splitNl (c :: (l1' ++ '\n' :: l2)) = _
    simp only [splitNl, ih l2 (fun d hd => h d (by simp [hd])), if_neg hc]

theorem splitNl_cons_nl (cs : List Char) : splitNl ('\n' :: cs) = [] :: splitNl cs := by
  simp only [splitNl]
  cases h : splitNl cs with
  | nil => exact absurd h (splitNl_ne_nil cs)
  | cons a as => simp

theorem splitNl_cons_of_ne {c : Char} (hc : c ≠ '\n') {cs : List Char}
    {a : List Char} {as : List (List Char)} (h : splitNl cs = a :: as) :
    splitNl (c :: cs) = (c :: a) :: as := by
  simp only [splitNl, h, if_neg hc]

theorem splitNl_chars : ∀ (l : List Char) (line : List Char), line ∈ splitNl l →
    ∀ c ∈ line, c ∈ l := by
  intro l
  induction l with
  | nil =>
    intro line hline c hc
    simp only [splitNl, List.mem_singleton] at hline
    subst hline
    simp at hc
  | cons b bs ih =>
    intro line hline c hc
    cases hs : splitNl bs with
    | nil => exact absurd hs (splitNl_ne_nil bs)
    | cons a as =>
      by_cases hb : b = '\n'
      · subst hb
        rw [splitNl_cons_nl bs] at hline
        rcases List.mem_cons.mp hline with rfl | hline
        · simp at hc
        · exact List.mem_cons_of_mem _ (ih line hline c hc)
      · rw [splitNl_cons_of_ne hb hs] at hline
        rcases List.mem_cons.mp hline with rfl | hline
        · rcases List.mem_cons.mp hc with rfl | hc
          · simp
          · exact List.mem_cons_of_mem b (ih a (hs ▸ List.mem_cons_self a as) c hc)
        · exact List.mem_cons_of_mem b (ih line (hs ▸ List.mem_cons_of_mem a hline) c hc)

/-! ### Lemmas about `sjoin` -/

theorem sjoin_cons_of_ne_nil {w : List Char} {ws : List (List Char)} (h : ws ≠ []) :
    sjoin (w :: ws) = w ++ ' ' :: sjoin ws := by
  cases ws with
  | nil => exact absurd rfl h
  | cons x ws' => rfl

theorem sjoin_mem_char : ∀ (ws : List (List Char)) (c : Char), c ∈ sjoin ws →
    c = ' ' ∨ ∃ w ∈ ws, c ∈ w := by
  intro ws
  induction ws with
  | nil => intro c hc; simp [sjoin] at hc
  | cons w ws' ih =>
    intro c hc
    cases ws' with
    | nil =>
      right
      exact ⟨w, by simp, hc⟩
    | cons x ws'' =>
      rw [sjoin_cons_of_ne_nil (by simp)] at hc
      rcases List.mem_append.mp hc with hc | hc
      · exact Or.inr ⟨w, by simp, hc⟩
      · rcases List.mem_cons.mp hc with rfl | hc
        · exact Or.inl rfl
        · rcases ih c hc with h | ⟨v, hv, hcv⟩
          · exact Or.inl h
          · exact Or.inr ⟨v, by simp [hv], hcv⟩

theorem sjoin_append_singleton : ∀ (ws : List (List Char)) (w : List Char), ws ≠ [] →
    sjoin (ws ++ [w]) = sjoin ws ++ ' ' :: w := by
  intro ws
  induction ws with
  | nil => intro w h; exact absurd rfl h
  | cons x ws' ih =>
    intro w _
    cases ws' with
    | nil => rfl
    | cons y ws'' =>
      show sjoin (x :: ((y :: ws'') ++ [w])) = _
      rw [sjoin_cons_of_ne_nil (show (y :: ws'') ++ [w] ≠ [] by simp), ih w (by simp)]
      show x ++ ' ' :: (sjoin (y :: ws'') ++ ' ' :: w)
        = (x ++ ' ' :: sjoin (y :: ws'')) ++ ' ' :: w
      simp

/-! ### Lemmas about `lastNlSplit`, `blankMatch`, `paraSplitFuel` -/

theorem lastNlSplit_length : ∀ {run r : List Char},
    lastNlSplit run = some r → r.length < run.length := by
  intro run
  induction run with
  | nil => intro r h; simp [lastNlSplit] at h
  | cons c cs ih =>
    intro r h
    simp only [lastNlSplit] at h
    cases hcs : lastNlSplit cs with
    | some r0 =>
      rw [hcs] at h
      cases h
      have := ih hcs
      simp
      omega
    | none =>
      rw [hcs] at h
      by_cases hc : c = '\n'
      · simp [hc] at h
        subst h
        simp
      · simp [hc] at h

theorem lastNlSplit_none_of_no_nl : ∀ {l : List Char}, (∀ c ∈ l, c ≠ '\n') →
    lastNlSplit l = none := by
  intro l
  induction l with
  | nil => intro _; rfl
  | cons c cs ih =>
    intro h
    simp only [lastNlSplit, ih (fun d hd => h d (by simp [hd]))]
    simp [h c (by simp)]

theorem lastNlSplit_some_nl : ∀ {l : List Char} {r : List Char},
    lastNlSplit l = some r → '\n' ∈ l := by
  intro l
  induction l with
  | nil => intro r h; simp [lastNlSplit] at h
  | cons c cs ih =>
    intro r h
    simp only [lastNlSplit] at h
    cases hcs : lastNlSplit cs with
    | some r0 =>
      rw [hcs] at h
      exact List.mem_cons_of_mem c (ih hcs)
    | none =>
      rw [hcs] at h
      by_cases hc : c = '\n'
      · simp [hc]
      · simp [hc] at h

theorem blankMatch_length {l rest : List Char} (h : blankMatch l = some rest) :
    rest.length < l.length + 1 := by
  unfold blankMatch at h
  cases hm : lastNlSplit (l.takeWhile pyWs) with
  | none => rw [hm] at h; cases h
  | some r =>
    rw [hm] at h
    cases h
    have h1 := lastNlSplit_length hm
    have h2 : (l.takeWhile pyWs).length + (l.dropWhile pyWs).length = l.length := by
      rw [← List.length_append, List.takeWhile_append_dropWhile]
    simp only [List.length_append]
    omega

theorem blankMatch_none_of_first_line {l : List Char}
    (h : ∀ c ∈ l.takeWhile pyWs, c ≠ '\n') : blankMatch l = none := by
  unfold blankMatch
  rw [lastNlSplit_none_of_no_nl h]

theorem firstline_all_ws_of_nl_in_run : ∀ {l : List Char}, '\n' ∈ l.takeWhile pyWs →
    ∀ c ∈ (splitNl l).headD [], pyWs c = true := by
  intro l
  induction l with
  | nil => intro h; simp at h
  | cons b bs ih =>
    intro h c hc
    by_cases hws : pyWs b
    · rw [List.takeWhile_cons_of_pos hws] at h
      by_cases hb : b = '\n'
      · subst hb
        rw [splitNl_cons_nl bs] at hc
        simp at hc
      · cases hs : splitNl bs with
        | nil => exact absurd hs (splitNl_ne_nil bs)
        | cons a as =>
          rw [splitNl_cons_of_ne hb hs] at hc
          simp only [List.headD_cons] at hc
          rcases List.mem_cons.mp hc with rfl | hc
          · exact hws
          · have h2 : '\n' ∈ bs.takeWhile pyWs := by
              rcases List.mem_cons.mp h with heq | h2
              · exact absurd heq.symm hb
              · exact h2
            have := ih h2 c
            rw [hs] at this
            exact this hc
    · rw [List.takeWhile_cons_of_neg (by simp [hws])] at h
      simp at h

theorem paraSplitFuel_irrel : ∀ (fuel fuel' : Nat) (cur l : List Char),
    l.length ≤ fuel → l.length ≤ fuel' →
    paraSplitFuel fuel cur l = paraSplitFuel fuel' cur l := by
  intro fuel
  induction fuel with
  | zero =>
    intro fuel' cur l h _
    cases l with
    | nil => cases fuel' <;> rfl
    | cons c cs => simp at h
  | succ n ih =>
    intro fuel' cur l h h'
    cases l with
    | nil => cases fuel' <;> rfl
    | cons c cs =>
      cases fuel' with
      | zero => simp at h'
      | succ n' =>
        simp only [List.length_cons] at h h'
        simp only [paraSplitFuel]
        by_cases hc : c = '\n'
        · simp only [if_pos hc]
          cases hb : blankMatch cs with
          | some rest =>
            have hr := blankMatch_length hb
            simp only []
            rw [ih n' [] rest (by omega) (by omega)]
          | none =>
            rw [ih n' (c :: cur) cs (by omega) (by omega)]
        · simp only [if_neg hc]
          rw [ih n' (c :: cur) cs (by omega) (by omega)]

theorem paraSplitFuel_no_nl : ∀ (fuel : Nat) (l cur : List Char),
    (∀ c ∈ l, c ≠ '\n') → l.length ≤ fuel →
    paraSplitFuel fuel cur l = [cur.reverse ++ l] := by
  intro fuel
  induction fuel with
  | zero =>
    intro l cur _ hlen
    cases l with
    | nil => simp [paraSplitFuel]
    | cons c cs => simp at hlen
  | succ n ih =>
    intro l cur hl hlen
    cases l with
    | nil => simp [paraSplitFuel]
    | cons c cs =>
      have hc : c ≠ '\n' := hl c (by simp)
      simp only [paraSplitFuel, if_neg hc]
      rw [ih cs (c :: cur) (fun d hd => hl d (by simp [hd]))
        (by simp only [List.length_cons] at hlen; omega)]
      simp

theorem paraSplitFuel_no_blank : ∀ (fuel : Nat) (l cur : List Char),
    l.length ≤ fuel →
    (∀ line ∈ (splitNl l).drop 1, stripChars line ≠ []) →
    paraSplitFuel fuel cur l = [cur.reverse ++ l] := by
  intro fuel
  induction fuel with
  | zero =>
    intro l cur hlen _
    cases l with
    | nil => simp [paraSplitFuel]
    | cons c cs => simp at hlen
  | succ n ih =>
    intro l cur hlen hblank
    cases l with
    | nil => simp [paraSplitFuel]
    | cons c cs =>
      simp only [List.length_cons] at hlen
      by_cases hc : c = '\n'
      · subst hc
        have hdrop : (splitNl ('\n' :: cs)).drop 1 = splitNl cs := by
          rw [splitNl_cons_nl cs]
          simp
        rw [hdrop] at hblank
        have hbm : blankMatch cs = none := by
          apply blankMatch_none_of_first_line
          intro d hd
          intro hdnl
          subst hdnl
          cases hs : splitNl cs with
          | nil => exact absurd hs (splitNl_ne_nil cs)
          | cons a as =>
            have ha : stripChars a ≠ [] := hblank a (hs ▸ List.mem_cons_self a as)
            have : ∀ e ∈ a, pyWs e = true := by
              have h2 := firstline_all_ws_of_nl_in_run hd
              rw [hs] at h2
              exact h2
            exact ha (stripChars_eq_nil_of_all_ws this)
        simp only [paraSplitFuel, if_pos rfl, hbm]
        rw [ih cs ('\n' :: cur) (by omega) ?hb]
        · simp
        case hb =>
          intro line hline
          cases hs : splitNl cs with
          | nil => exact absurd hs (splitNl_ne_nil cs)
          | cons a as =>
            rw [hs] at hline
            exact hblank line (hs ▸ List.mem_cons_of_mem a hline)
      · have hdrop : (splitNl (c :: cs)).drop 1 = (splitNl cs).drop 1 := by
          cases hs : splitNl cs with
          | nil => exact absurd hs (splitNl_ne_nil cs)
          | cons a as => rw [splitNl_cons_of_ne hc hs]; simp
        rw [hdrop] at hblank
        simp only [paraSplitFuel, if_neg hc]
        rw [ih cs (c :: cur) (by omega) hblank]
        simp

theorem paraSplit_no_blank {l : List Char}
    (h : ∀ line ∈ splitNl l, stripChars line ≠ []) :
    paraSplit l = [l] := by
  unfold paraSplit
  rw [paraSplitFuel_no_blank l.length l [] le_rfl
    (fun line hline => h line (by
      cases hs : splitNl l with
      | nil => exact absurd hs (splitNl_ne_nil l)
      | cons a as =>
        rw [hs] at hline
        simp only [List.drop_one, List.tail_cons] at hline
        exact hs ▸ List.mem_cons_of_mem a hline))]
  simp

/-! ### Lemmas about `splitLongFuel` -/

theorem splitLongFuel_stop {ws : List (List Char)} {maxc ov : Nat} {bh : List Char}
    {fuel s cid num : Nat} (h : ¬ s < ws.length) :
    splitLongFuel ws maxc ov bh fuel s cid num = [] := by
  cases fuel with
  | zero => rfl
  | succ n => simp [splitLongFuel, h]

theorem splitLongFuel_single {ws : List (List Char)} {maxc ov : Nat} {bh : List Char}
    {fuel s cid num : Nat} (h1 : s < ws.length) (h2 : ws.length ≤ s + maxc) :
    splitLongFuel ws maxc ov bh (fuel + 1) s cid num =
      [⟨cid, bh ++ partLabel num, sjoin ((ws.drop s).take maxc),
        ((ws.drop s).take maxc).length⟩] := by
  simp [splitLongFuel, h1, h2]

theorem splitLongFuel_cons_eq {ws : List (List Char)} {maxc ov : Nat} {bh : List Char}
    {fuel s cid num : Nat} (h1 : s < ws.length) (h2 : ¬ ws.length ≤ s + maxc) :
    splitLongFuel ws maxc ov bh (fuel + 1) s cid num =
      ⟨cid, bh ++ partLabel num, sjoin ((ws.drop s).take maxc),
        ((ws.drop s).take maxc).length⟩ ::
      splitLongFuel ws maxc ov bh fuel (nextStart maxc ov s) (cid + 1) (num + 1) := by
  simp [splitLongFuel, h1, h2]

theorem splitLongFuel_irrel (ws : List (List Char)) (maxc ov : Nat) (bh : List Char) :
    ∀ (fuel fuel' s cid num : Nat),
    ws.length - s ≤ fuel → ws.length - s ≤ fuel' →
    splitLongFuel ws maxc ov bh fuel s cid num =
      splitLongFuel ws maxc ov bh fuel' s cid num := by
  intro fuel
  induction fuel with
  | zero =>
    intro fuel' s cid num h _
    have hs : ¬ s < ws.length := by omega
    rw [splitLongFuel_stop hs, splitLongFuel_stop hs]
  | succ n ih =>
    intro fuel' s cid num h h'
    by_cases hs : s < ws.length
    · cases fuel' with
      | zero => omega
      | succ n' =>
        by_cases hend : ws.length ≤ s + maxc
        · rw [splitLongFuel_single hs hend, splitLongFuel_single hs hend]
        · rw [splitLongFuel_cons_eq hs hend, splitLongFuel_cons_eq hs hend]
          have hns : s < nextStart maxc ov s := by unfold nextStart; omega
          rw [ih n' (nextStart maxc ov s) (cid + 1) (num + 1) (by omega) (by omega)]
    · rw [splitLongFuel_stop hs, splitLongFuel_stop hs]

theorem splitLongFuel_ne_nil {ws : List (List Char)} {maxc ov : Nat} {bh : List Char}
    {fuel s cid num : Nat} (hf : 1 ≤ fuel) (hs : s < ws.length) :
    splitLongFuel ws maxc ov bh fuel s cid num ≠ [] := by
  cases fuel with
  | zero => omega
  | succ n =>
    by_cases hend : ws.length ≤ s + maxc
    · rw [splitLongFuel_single hs hend]; simp
    · rw [splitLongFuel_cons_eq hs hend]; simp

theorem splitLongFuel_head {ws : List (List Char)} {maxc ov : Nat} {bh : List Char}
    {fuel s cid num : Nat} (hs : s < ws.length) :
    ∃ t, splitLongFuel ws maxc ov bh (fuel + 1) s cid num =
      ⟨cid, bh ++ partLabel num, sjoin ((ws.drop s).take maxc),
        ((ws.drop s).take maxc).length⟩ :: t := by
  by_cases hend : ws.length ≤ s + maxc
  · exact ⟨[], splitLongFuel_single hs hend⟩
  · exact ⟨_, splitLongFuel_cons_eq hs hend⟩

theorem splitLongFuel_mem_window {ws : List (List Char)} {maxc ov : Nat} {bh : List Char} :
    ∀ (fuel s cid num : Nat) (c : Chunk),
    c ∈ splitLongFuel ws maxc ov bh fuel s cid num →
    ∃ st, c.content = sjoin ((ws.drop st).take maxc) ∧
      c.word_count = ((ws.drop st).take maxc).length := by
  intro fuel
  induction fuel with
  | zero => intro s cid num c hc; simp [splitLongFuel] at hc
  | succ n ih =>
    intro s cid num c hc
    by_cases hs : s < ws.length
    · by_cases hend : ws.length ≤ s + maxc
      · rw [splitLongFuel_single hs hend] at hc
        simp only [List.mem_singleton] at hc
        subst hc
        exact ⟨s, rfl, rfl⟩
      · rw [splitLongFuel_cons_eq hs hend] at hc
        rcases List.mem_cons.mp hc with rfl | hc
        · exact ⟨s, rfl, rfl⟩
        · exact ih _ _ _ c hc
    · rw [splitLongFuel_stop hs] at hc; simp at hc

theorem splitLongFuel_length_le {ws : List (List Char)} {maxc ov : Nat} {bh : List Char} :
    ∀ (fuel s cid num : Nat),
    (splitLongFuel ws maxc ov bh fuel s cid num).length ≤ ws.length - s := by
  intro fuel
  induction fuel with
  | zero => intro s cid num; simp [splitLongFuel]
  | succ n ih =>
    intro s cid num
    by_cases hs : s < ws.length
    · by_cases hend : ws.length ≤ s + maxc
      · rw [splitLongFuel_single hs hend]
        simp only [List.length_singleton]
        omega
      · rw [splitLongFuel_cons_eq hs hend]
        have h1 := ih (nextStart maxc ov s) (cid + 1) (num + 1)
        have hns : s + 1 ≤ nextStart maxc ov s := by unfold nextStart; omega
        simp only [List.length_cons]
        omega
    · rw [splitLongFuel_stop hs]; simp

theorem window_wordsOk {ws : List (List Char)} (hok : wordsOk ws) (s n : Nat) :
    wordsOk ((ws.drop s).take n) := by
  intro w hw
  exact hok w (((List.take_sublist _ _).trans (List.drop_sublist _ _)).subset hw)

theorem window_words {ws : List (List Char)} (hok : wordsOk ws) (s n : Nat) :
    wordsChars (sjoin ((ws.drop s).take n)) = (ws.drop s).take n :=
  sjoin_roundtrip _ (window_wordsOk hok s n)

theorem mem_drop_of_le {ws : List (List Char)} {s i : Nat}
    (hsi : s ≤ i) (hi : i < ws.length) : ws.get ⟨i, hi⟩ ∈ ws.drop s := by
  have h1 : i - s < (ws.drop s).length := by
    simp only [List.length_drop]
    omega
  have h2 : (ws.drop s).get ⟨i - s, h1⟩ = ws.get ⟨i, hi⟩ := by
    simp only [List.get_eq_getElem, List.getElem_drop]
    simp only [show s + (i - s) = i from by omega]
  rw [← h2]
  exact List.get_mem _ _ _

theorem mem_window_of_lt {ws : List (List Char)} {s maxc i : Nat}
    (hsi : s ≤ i) (hi : i < ws.length) (hm : i < s + maxc) :
    ws.get ⟨i, hi⟩ ∈ (ws.drop s).take maxc := by
  have h1 : i - s < ((ws.drop s).take maxc).length := by
    simp only [List.length_take, List.length_drop]
    omega
  have h2 : ((ws.drop s).take maxc).get ⟨i - s, h1⟩ = ws.get ⟨i, hi⟩ := by
    simp only [List.get_eq_getElem, List.getElem_take, List.getElem_drop]
    simp only [show s + (i - s) = i from by omega]
  rw [← h2]
  exact List.get_mem _ _ _

theorem splitLongFuel_cover {ws : List (List Char)} {maxc ov : Nat} {bh : List Char}
    (hok : wordsOk ws) (hlt : ov < maxc) :
    ∀ (fuel s cid num i : Nat), ws.length - s ≤ fuel → s ≤ i → ∀ (hi : i < ws.length),
    ∃ c ∈ splitLongFuel ws maxc ov bh fuel s cid num,
      ws.get ⟨i, hi⟩ ∈ wordsChars c.content := by
  intro fuel
  induction fuel with
  | zero => intro s cid num i hf hsi hi; omega
  | succ n ih =>
    intro s cid num i hf hsi hi
    have hs : s < ws.length := by omega
    by_cases hend : ws.length ≤ s + maxc
    · rw [splitLongFuel_single hs hend]
      refine ⟨_, List.mem_singleton_self _, ?_⟩
      show ws.get ⟨i, hi⟩ ∈ wordsChars (sjoin ((ws.drop s).take maxc))
      rw [window_words hok]
      rw [List.take_of_length_le (by simp only [List.length_drop]; omega)]
      exact mem_drop_of_le hsi hi
    · by_cases hcase : i < s + maxc
      · rcases @splitLongFuel_head ws maxc ov bh n s cid num hs with ⟨t, ht⟩
        rw [ht]
        refine ⟨_, List.mem_cons_self _ _, ?_⟩
        show ws.get ⟨i, hi⟩ ∈ wordsChars (sjoin ((ws.drop s).take maxc))
        rw [window_words hok]
        exact mem_window_of_lt hsi hi hcase
      · have hns : s < nextStart maxc ov s := by unfold nextStart; omega
        have hnext : nextStart maxc ov s ≤ i := by unfold nextStart; omega
        rcases ih (nextStart maxc ov s) (cid + 1) (num + 1) i (by omega) hnext hi with
          ⟨c, hc, hmem⟩
        rw [splitLongFuel_cons_eq hs hend]
        exact ⟨c, List.mem_cons_of_mem _ hc, hmem⟩

theorem nextStart_eq_of_lt {maxc ov s : Nat} (hlt : ov < maxc) :
    nextStart maxc ov s = s + (maxc - ov) := by
  unfold nextStart
  omega

theorem window_length_of_lt {ws : List (List Char)} {s maxc : Nat}
    (h : s + maxc < ws.length) : ((ws.drop s).take maxc).length = maxc := by
  simp only [List.length_take, List.length_drop]
  omega

theorem splitLongFuel_adjacent {ws : List (List Char)} {maxc ov : Nat} {bh : List Char}
    (hok : wordsOk ws) (hov : 0 < ov) (hlt : ov < maxc) :
    ∀ (fuel s cid num k : Nat) (c1 c2 : Chunk), ws.length - s ≤ fuel →
    (splitLongFuel ws maxc ov bh fuel s cid num)[k]? = some c1 →
    (splitLongFuel ws maxc ov bh fuel s cid num)[k + 1]? = some c2 →
    ov ≤ (wordsChars c1.content).length ∧
    (wordsChars c1.content).drop ((wordsChars c1.content).length - ov)
      = (wordsChars c2.content).take ov := by
  intro fuel
  induction fuel with
  | zero =>
    intro s cid num k c1 c2 hf h1 h2
    rw [splitLongFuel_stop (by omega)] at h1
    simp at h1
  | succ n ih =>
    intro s cid num k c1 c2 hf h1 h2
    by_cases hs : s < ws.length
    · by_cases hend : ws.length ≤ s + maxc
      · rw [splitLongFuel_single hs hend] at h2
        rcases k with _ | k' <;> simp at h2
      · have hlen : s + maxc < ws.length := by omega
        have hns : s < nextStart maxc ov s := by unfold nextStart; omega
        have hslt : nextStart maxc ov s < ws.length := by
          rw [nextStart_eq_of_lt hlt]
          omega
        rw [splitLongFuel_cons_eq hs hend] at h1 h2
        cases k with
        | zero =>
          simp only [List.getElem?_cons_zero, Option.some_inj] at h1
          simp only [List.getElem?_cons_succ] at h2
          obtain ⟨m, rfl⟩ : ∃ m, n = m + 1 := ⟨n - 1, by omega⟩
          rcases @splitLongFuel_head ws maxc ov bh m (nextStart maxc ov s)
            (cid + 1) (num + 1) hslt with ⟨t, ht⟩
          rw [ht] at h2
          simp only [List.getElem?_cons_zero, Option.some_inj] at h2
          subst h1
          subst h2
          simp only []
          rw [window_words hok, window_words hok]
          constructor
          · rw [window_length_of_lt hlen]
            omega
          · rw [window_length_of_lt hlen]
            rw [List.drop_take, List.drop_drop, List.take_take]
            rw [nextStart_eq_of_lt hlt]
            simp only [show maxc - (maxc - ov) = ov from by omega,
              show min ov maxc = ov from by omega]
        | succ k' =>
          simp only [List.getElem?_cons_succ] at h1 h2
          exact ih (nextStart maxc ov s) (cid + 1) (num + 1) k' c1 c2 (by omega) h1 h2
    · rw [splitLongFuel_stop hs] at h1
      simp at h1

theorem splitLongFuel_last {ws : List (List Char)} {maxc ov : Nat} {bh : List Char}
    (hok : wordsOk ws) (hlt : ov < maxc) :
    ∀ (fuel s cid num : Nat), ws.length - s ≤ fuel → s < ws.length →
    ∃ c, (splitLongFuel ws maxc ov bh fuel s cid num).getLast? = some c ∧
      (wordsChars c.content).getLast? = ws.getLast? := by
  intro fuel
  induction fuel with
  | zero => intro s cid num hf hs; omega
  | succ n ih =>
    intro s cid num hf hs
    by_cases hend : ws.length ≤ s + maxc
    · rw [splitLongFuel_single hs hend]
      refine ⟨_, rfl, ?_⟩
      show (wordsChars (sjoin ((ws.drop s).take maxc))).getLast? = ws.getLast?
      rw [window_words hok]
      rw [List.take_of_length_le (by simp only [List.length_drop]; omega)]
      have hne : ws.drop s ≠ [] := by
        intro h
        have := congrArg List.length h
        simp only [List.length_drop, List.length_nil] at this
        omega
      conv_rhs => rw [← List.take_append_drop s ws]
      rw [List.getLast?_append]
      cases hd : (ws.drop s).getLast? with
      | none => exact absurd (List.getLast?_eq_none_iff.mp hd) hne
      | some d => rfl
    · have hns : s < nextStart maxc ov s := by unfold nextStart; omega
      have hslt : nextStart maxc ov s < ws.length := by
        rw [nextStart_eq_of_lt hlt]
        omega
      rcases ih (nextStart maxc ov s) (cid + 1) (num + 1) (by omega) hslt with
        ⟨c, hc1, hc2⟩
      refine ⟨c, ?_, hc2⟩
      rw [splitLongFuel_cons_eq hs hend]
      have hrest : splitLongFuel ws maxc ov bh n (nextStart maxc ov s)
          (cid + 1) (num + 1) ≠ [] := by
        intro h
        rw [h] at hc1
        simp at hc1
      rcases List.exists_cons_of_ne_nil hrest with ⟨r, rs, hr⟩
      rw [hr] at hc1 ⊢
      rw [List.getLast?_cons_cons]
      exact hc1

/-! ### Claims C1, C2, C10 -/

theorem chunkStep_ok : ∀ (sec : PSection) (acc : List Chunk),
    (∀ c ∈ acc, chunkOk c) → ∀ c ∈ chunkStep acc sec, chunkOk c := by
  intro sec acc hacc c hc
  simp only [chunkStep] at hc
  by_cases hle : (wordsChars sec.content).length ≤ max_chunk_size
  · rw [if_pos hle] at hc
    rcases List.mem_append.mp hc with hc | hc
    · exact hacc c hc
    · simp only [List.mem_singleton] at hc
      subst hc
      exact ⟨rfl, hle⟩
  · rw [if_neg hle] at hc
    rcases List.mem_append.mp hc with hc | hc
    · exact hacc c hc
    · rcases splitLongFuel_mem_window _ _ _ _ c hc with ⟨st, hcont, hwc⟩
      have hcw : chunkWords c = ((wordsChars sec.content).drop st).take max_chunk_size := by
        unfold chunkWords
        rw [hcont]
        exact window_words (wordsChars_ok sec.content) st max_chunk_size
      constructor
      · rw [hcw, hwc]
      · rw [hwc]
        exact (List.length_take_le _ _)

theorem chunksOfSections_ok : ∀ (secs : List PSection) (acc : List Chunk),
    (∀ c ∈ acc, chunkOk c) → ∀ c ∈ secs.foldl chunkStep acc, chunkOk c := by
  intro secs
  induction secs with
  | nil => intro acc h c hc; exact h c (by simpa using hc)
  | cons sec rest ih =>
    intro acc h c hc
    rw [List.foldl_cons] at hc
    exact ih (chunkStep acc sec) (chunkStep_ok sec acc h) c hc

/-- Claim C1: every chunk returned by `split_into_chunks` stores as
`word_count` exactly the word count of its content, and that count never
exceeds `max_chunk_size`. -/
theorem chunk_size_invariant (text : String) :
    ∀ c ∈ split_into_chunks text, chunkOk c := by
  intro c hc
  simp only [split_into_chunks, chunksOfSections] at hc
  exact chunksOfSections_ok _ [] (by simp) c hc

theorem chunk_size_invariant_witness :
    (⟨0, ("Section 1").data, ("a b").data, 2⟩ : Chunk) ∈ split_into_chunks "a b" ∧
    chunkOk ⟨0, ("Section 1").data, ("a b").data, 2⟩ :=
  ⟨by decide, chunk_size_invariant "a b" _ (by decide)⟩

/-- Claim C2: for content with more than `max_chunk_size` words,
`_split_long_content` covers every word, overlaps consecutive chunks by
`overlap_size` words, and ends with the input's last word. -/
theorem overlap_split_correct (content bh : List Char)
    (hW : max_chunk_size < (wordsChars content).length) :
    OverlapSplitSpec content bh := by
  have hok := wordsChars_ok content
  have hov : 0 < overlap_size := by decide
  have hlt : overlap_size < max_chunk_size := by decide
  have hm : max_chunk_size = 800 := rfl
  have h0 : 0 < (wordsChars content).length := by omega
  refine ⟨?_, ?_, ?_, ?_⟩
  · exact splitLongFuel_ne_nil (by omega) (by omega)
  · intro i hi
    exact splitLongFuel_cover hok hlt (wordsChars content).length 0 0 1 i
      (by omega) (Nat.zero_le i) hi
  · intro k c1 c2 h1 h2
    exact splitLongFuel_adjacent hok hov hlt (wordsChars content).length 0 0 1 k c1 c2
      (by omega) h1 h2
  · exact splitLongFuel_last hok hlt (wordsChars content).length 0 0 1
      (by omega) (by omega)

theorem overlap_split_correct_witness :
    max_chunk_size < (wordsChars content801).length ∧ OverlapSplitSpec content801 [] := by
  have h : wordsChars content801 = List.replicate 801 ("w").data := by
    apply sjoin_roundtrip
    intro w hw
    rcases List.mem_replicate.mp hw with ⟨-, rfl⟩
    exact ⟨by decide, by decide⟩
  have hlen : max_chunk_size < (wordsChars content801).length := by
    rw [h, List.length_replicate]
    decide
  exact ⟨hlen, overlap_split_correct content801 [] hlen⟩

/-- Claim C10: the `_split_long_content` loop advances its cursor by at
least one word per iteration and therefore terminates within
`ws.length` iterations for every parameter value: any sufficient fuel
yields the same result, and the number of chunks is bounded by the
number of remaining words. -/
theorem split_long_terminates :
    (∀ (maxc ov s : Nat), s + 1 ≤ nextStart maxc ov s) ∧
    (∀ (ws : List (List Char)) (maxc ov : Nat) (bh : List Char)
      (fuel fuel' s cid num : Nat),
      ws.length - s ≤ fuel → ws.length - s ≤ fuel' →
      splitLongFuel ws maxc ov bh fuel s cid num =
        splitLongFuel ws maxc ov bh fuel' s cid num) ∧
    (∀ (ws : List (List Char)) (maxc ov : Nat) (bh : List Char)
      (fuel s cid num : Nat),
      (splitLongFuel ws maxc ov bh fuel s cid num).length ≤ ws.length - s) := by
  refine ⟨?_, ?_, ?_⟩
  · intro maxc ov s
    unfold nextStart
    omega
  · intro ws maxc ov bh fuel fuel' s cid num h h'
    exact splitLongFuel_irrel ws maxc ov bh fuel fuel' s cid num h h'
  · intro ws maxc ov bh fuel s cid num
    exact splitLongFuel_length_le fuel s cid num

theorem split_long_terminates_witness :
    0 + 1 ≤ nextStart 800 100 0 ∧
    splitLongFuel [("a").data] 800 100 [] 1 0 0 1 =
      splitLongFuel [("a").data] 800 100 [] 5 0 0 1 ∧
    (splitLongFuel [("a").data] 800 100 [] 1 0 0 1).length ≤
      ([("a").data] : List (List Char)).length - 0 :=
  ⟨split_long_terminates.1 800 100 0,
   split_long_terminates.2.1 [("a").data] 800 100 [] 1 5 0 0 1 (by decide) (by decide),
   split_long_terminates.2.2 [("a").data] 800 100 [] 1 0 0 1⟩

/-! ### The header pass, claims C7 and C5 -/

theorem headerStep_no_header {secs : List PSection} {cur : List (List Char)}
    {raw : List Char} (h1 : stripChars raw ≠ [])
    (h2 : is_potential_header (stripChars raw) = false) :
    headerStep (secs, cur) raw = (secs, cur ++ [stripChars raw]) := by
  simp only [headerStep]
  rw [if_neg h1, h2]
  simp

theorem foldl_headerStep_no_header : ∀ (lines : List (List Char)) (secs : List PSection)
    (cur : List (List Char)),
    (∀ l ∈ lines, stripChars l ≠ [] ∧ is_potential_header (stripChars l) = false) →
    lines.foldl headerStep (secs, cur) = (secs, cur ++ lines.map stripChars) := by
  intro lines
  induction lines with
  | nil => intro secs cur _; simp
  | cons raw rest ih =>
    intro secs cur h
    have h1 := h raw (by simp)
    rw [List.foldl_cons, headerStep_no_header h1.1 h1.2,
      ih secs (cur ++ [stripChars raw]) (fun l hl => h l (by simp [hl]))]
    simp

/-- Claim C7: a text with no blank lines and no header-like lines whose
word count is at most `max_chunk_size` yields exactly one chunk, whose
content is the stripped input (so its words are the input's words). -/
theorem single_chunk_no_structure (text : String)
    (h : ∀ l ∈ splitNl text.data, stripChars l ≠ [] ∧
      is_potential_header (stripChars l) = false)
    (hsize : (wordsChars text.data).length ≤ max_chunk_size) :
    split_into_chunks text =
      [⟨0, ("Section 1").data, stripChars text.data, (wordsChars text.data).length⟩] ∧
    wordsChars (stripChars text.data) = wordsChars text.data := by
  refine ⟨?_, wordsChars_strip text.data⟩
  have hsecs : header_sections text.data = ([], (splitNl text.data).map stripChars) := by
    unfold header_sections
    exact foldl_headerStep_no_header (splitNl text.data) [] [] h
  have hcurne : (splitNl text.data).map stripChars ≠ [] := by
    intro hmap
    exact splitNl_ne_nil text.data (List.map_eq_nil_iff.mp hmap)
  have hsec0 : sectionsOf text.data =
      [⟨("Final Section").data, stripChars (sjoin ((splitNl text.data).map stripChars))⟩] := by
    unfold sectionsOf
    rw [hsecs]
    simp only [if_neg hcurne]
    simp
  have hpara : paraSplit text.data = [text.data] :=
    paraSplit_no_blank (fun line hline => (h line hline).1)
  have hstripne : stripChars text.data ≠ [] := by
    cases hs : splitNl text.data with
    | nil => exact absurd hs (splitNl_ne_nil text.data)
    | cons a as =>
      have ha : stripChars a ≠ [] := (h a (hs ▸ List.mem_cons_self a as)).1
      have hex : ¬ ∀ c ∈ a, pyWs c = true :=
        fun hall => ha (stripChars_eq_nil_of_all_ws hall)
      push_neg at hex
      rcases hex with ⟨c, hc, hcws⟩
      intro hnil
      have hall := all_ws_of_stripChars_eq_nil hnil
      exact hcws (hall c (splitNl_chars text.data a
        (hs ▸ List.mem_cons_self a as) c hc))
  have hlabel : ("Section " ++ toString (0 + 1)).data = ("Section 1").data := by decide
  have hparaSec : paraSections text.data = [⟨("Section 1").data, stripChars text.data⟩] := by
    unfold paraSections
    rw [hpara]
    simp only [List.enum, List.enumFrom, List.filterMap, if_neg hstripne, hlabel]
  show split_into_chunks text = _
  unfold split_into_chunks
  simp only []
  have hlen : (sectionsOf text.data).length ≤ 1 := by rw [hsec0]; simp
  rw [if_pos hlen, hparaSec]
  unfold chunksOfSections
  rw [List.foldl_cons, List.foldl_nil]
  unfold chunkStep
  simp only []
  have hcond : (wordsChars (stripChars text.data)).length ≤ max_chunk_size := by
    rw [wordsChars_strip]
    exact hsize
  rw [if_pos hcond]
  simp only [List.nil_append, List.length_nil]
  rw [wordsChars_strip]

theorem single_chunk_no_structure_witness :
    (∀ l ∈ splitNl ("hello world").data, stripChars l ≠ [] ∧
      is_potential_header (stripChars l) = false) ∧
    (wordsChars ("hello world").data).length ≤ max_chunk_size ∧
    split_into_chunks "hello world" =
      [⟨0, ("Section 1").data, stripChars ("hello world").data,
        (wordsChars ("hello world").data).length⟩] :=
  ⟨by decide, by decide,
   (single_chunk_no_structure "hello world" (by decide) (by decide)).1⟩

/-- Claim C5 (amended): when a stripped line is classified as a potential
header while the accumulated section has more than 50 words, the closed
section stores that header line as its label and the *previously
accumulated* content as its body; the new accumulator starts empty (the
header line is not part of the following section's content). -/
theorem header_labels_preceding (secs : List PSection) (cur : List (List Char))
    (raw : List Char) (hline : stripChars raw ≠ [])
    (hhead : is_potential_header (stripChars raw) = true)
    (hcur : cur ≠ [])
    (hwc : 50 < (wordsChars (sjoin cur)).length) :
    headerStep (secs, cur) raw =
      (secs ++ [⟨stripChars raw, stripChars (sjoin cur)⟩], []) := by
  simp only [headerStep]
  rw [if_neg hline]
  simp [hhead, hcur, hwc]

set_option maxRecDepth 20000 in
theorem header_labels_preceding_witness :
    (stripChars (("Methods").data) ≠ [] ∧
     is_potential_header (stripChars (("Methods").data)) = true ∧
     ([l60] : List (List Char)) ≠ [] ∧
     50 < (wordsChars (sjoin [l60])).length) ∧
    headerStep ([], [l60]) (("Methods").data) =
      ([⟨("Methods").data, l60⟩], []) := by
  refine ⟨⟨by decide, by decide, by decide, by decide⟩, ?_⟩
  have h := header_labels_preceding [] [l60] (("Methods").data)
    (by decide) (by decide) (by decide) (by decide)
  rw [h]
  decide

set_option maxRecDepth 100000 in
/-- Claim C5, counterexample: in `t5` the line `Methods` triggers a
close; the resulting section labelled `Methods` contains the sixty `a`s
accumulated *before* the header line, and no chunk labelled `Methods`
contains the content `b b` that follows it. -/
theorem header_labels_preceding_cex :
    split_into_chunks t5 =
      [⟨0, ("Methods").data, l60, 60⟩,
       ⟨1, ("Final Section").data, ("b b").data, 2⟩] ∧
    ¬ ∃ c ∈ split_into_chunks t5,
        c.header = ("Methods").data ∧ c.content = ("b b").data := by
  constructor
  · decide
  · decide

/-! ### Claims C6 and C9 -/

theorem collectSummaries_eq_filterMap (llm : String → Option String) :
    ∀ (chunks : List Chunk) (acc : List String),
    chunks.foldl (fun acc chunk =>
      match summarize_chunk llm chunk with
      | some summary => acc ++ [summary]
      | none => acc) acc
    = acc ++ chunks.filterMap (fun c => summarize_chunk llm c) := by
  intro chunks
  induction chunks with
  | nil => intro acc; simp
  | cons c rest ih =>
    intro acc
    rw [List.foldl_cons]
    cases hs : summarize_chunk llm c with
    | some summary =>
      simp only [hs]
      rw [ih (acc ++ [summary])]
      simp [List.filterMap_cons, hs]
    | none =>
      simp only [hs]
      rw [ih acc]
      simp [List.filterMap_cons, hs]

/-- Claim C6: the chunk-summarization loop keeps exactly the successful
summaries in chunk order; when at least one summary succeeds and the
synthesis call answers, `process_pdf_chunked` returns the result built
from that answer; when every chunk summarization fails, it returns
absent for every possible behaviour of the rest of the model client. -/
theorem process_failure_handling (llm : String → Option String)
    (text title : String) (htext : text ≠ "") :
    collectSummaries llm (split_into_chunks text)
      = (split_into_chunks text).filterMap (fun c => summarize_chunk llm c) ∧
    (∀ final, collectSummaries llm (split_into_chunks text) ≠ [] →
      synthesize_summaries llm (collectSummaries llm (split_into_chunks text)) title
        = some final →
      process_pdf_chunked llm (some text) title =
        some ⟨title, (split_into_chunks text).length,
          (collectSummaries llm (split_into_chunks text)).length, final⟩) ∧
    (∀ g : String → Option String,
      (∀ c ∈ split_into_chunks text, summarize_chunk g c = none) →
      process_pdf_chunked g (some text) title = none) := by
  refine ⟨?_, ?_, ?_⟩
  · unfold collectSummaries
    rw [collectSummaries_eq_filterMap llm (split_into_chunks text) []]
    simp
  · intro final hne hsyn
    unfold process_pdf_chunked
    simp only [if_neg htext]
    rw [if_neg hne, hsyn]
  · intro g hall
    have hnil : collectSummaries g (split_into_chunks text) = [] := by
      unfold collectSummaries
      rw [collectSummaries_eq_filterMap g (split_into_chunks text) []]
      simp only [List.nil_append]
      exact List.filterMap_eq_nil_iff.mpr hall
    unfold process_pdf_chunked
    simp only [if_neg htext]
    rw [if_pos hnil]

set_option maxRecDepth 100000 in
theorem process_failure_handling_witness :
    (t6 ≠ "" ∧
     collectSummaries llm6 (split_into_chunks t6) = ["S"] ∧
     synthesize_summaries llm6 (collectSummaries llm6 (split_into_chunks t6)) "Paper"
       = some "S") ∧
    process_pdf_chunked llm6 (some t6) "Paper" = some ⟨"Paper", 2, 1, "S"⟩ ∧
    process_pdf_chunked (fun _ => none) (some t6) "Paper" = none := by
  refine ⟨⟨by decide, by decide, by decide⟩, ?_, ?_⟩
  · have h := (process_failure_handling llm6 t6 "Paper" (by decide)).2.1 "S"
      (by decide) (by decide)
    rw [h]
    decide
  · exact (process_failure_handling llm6 t6 "Paper" (by decide)).2.2
      (fun _ => none) (fun c _ => rfl)

set_option maxRecDepth 100000 in
/-- Claim C9 (code evaluated at the failing input): for `t6` with the
first chunk's summarization failing and the second succeeding with
`S2`, the debug records attach `S2` — the summary of chunk 2 — to
chunk 1, and mark chunk 2 as `FAILED`. -/
theorem debug_records_misaligned :
    summarize_chunk llm9 t6chunk0 = none ∧
    summarize_chunk llm9 t6chunk1 = some "S2" ∧
    split_into_chunks t6 = [t6chunk0, t6chunk1] ∧
    debug_records (split_into_chunks t6) (collectSummaries llm9 (split_into_chunks t6))
      = [(("Section 1").data, 1, "S2"), (("Section 2").data, 1, "FAILED")] := by
  refine ⟨by decide, by decide, by decide, by decide⟩

/-! ### Substring lemmas and claim C8 -/

theorem str_data_append (a b : String) : (a ++ b).data = a.data ++ b.data := rfl

theorem subListAt_self_append : ∀ (n t : List Char), subListAt n (n ++ t) = true := by
  intro n
  induction n with
  | nil => intro t; rfl
  | cons a n' ih =>
    intro t
    show subListAt (a :: n') (a :: (n' ++ t)) = true
    simp only [subListAt]
    rw [ih t]
    simp

theorem subListAt_append_right : ∀ (n h t : List Char),
    subListAt n h = true → subListAt n (h ++ t) = true := by
  intro n
  induction n with
  | nil => intro h t _; rfl
  | cons a n' ih =>
    intro h t hsub
    cases h with
    | nil => simp [subListAt] at hsub
    | cons b h' =>
      simp only [subListAt, Bool.and_eq_true] at hsub
      show subListAt (a :: n') (b :: (h' ++ t)) = true
      simp only [subListAt]
      rw [ih h' t hsub.2, hsub.1]
      simp

theorem containsSub_of_startsAt {n h : List Char} (hs : subListAt n h = true) :
    containsSub n h = true := by
  cases h with
  | nil =>
    cases n with
    | nil => rfl
    | cons a n' => simp [subListAt] at hs
  | cons c h' =>
    simp only [containsSub, hs]
    simp

theorem containsSub_append_left : ∀ (pre n h : List Char),
    containsSub n h = true → containsSub n (pre ++ h) = true := by
  intro pre
  induction pre with
  | nil => intro n h hc; simpa using hc
  | cons p pre' ih =>
    intro n h hc
    show containsSub n (p :: (pre' ++ h)) = true
    simp only [containsSub]
    rw [ih n h hc]
    simp

theorem containsSub_append_right : ∀ (h n t : List Char),
    containsSub n h = true → containsSub n (h ++ t) = true := by
  intro h
  induction h with
  | nil =>
    intro n t hc
    simp only [containsSub] at hc
    have : n = [] := by simpa using hc
    subst this
    exact containsSub_of_startsAt (by rfl)
  | cons c h' ih =>
    intro n t hc
    simp only [containsSub, Bool.or_eq_true] at hc
    show containsSub n (c :: (h' ++ t)) = true
    simp only [containsSub, Bool.or_eq_true]
    rcases hc with hc | hc
    · left
      exact subListAt_append_right n (c :: h') t hc
    · right
      exact ih n t hc

theorem containsSub_joinSep : ∀ (l : List String) (x : String) (sep : String),
    x ∈ l → containsSub x.data (joinSep sep l).data = true := by
  intro l
  induction l with
  | nil => intro x sep hx; simp at hx
  | cons y l' ih =>
    intro x sep hx
    cases l' with
    | nil =>
      simp only [List.mem_singleton] at hx
      subst hx
      show containsSub x.data x.data = true
      have := subListAt_self_append x.data []
      rw [List.append_nil] at this
      exact containsSub_of_startsAt this
    | cons z l'' =>
      rcases List.mem_cons.mp hx with rfl | hx
      · show containsSub x.data (x ++ sep ++ joinSep sep (z :: l'')).data = true
        rw [str_data_append, str_data_append]
        rw [List.append_assoc]
        exact containsSub_of_startsAt (subListAt_self_append x.data _)
      · show containsSub x.data (y ++ sep ++ joinSep sep (z :: l'')).data = true
        rw [str_data_append, str_data_append, List.append_assoc]
        apply containsSub_append_left
        apply containsSub_append_left
        exact ih x sep hx

theorem strContains_append_of_right (a b n : String)
    (h : containsSub n.data b.data = true) :
    containsSub n.data (a ++ b).data = true := by
  rw [str_data_append]
  exact containsSub_append_left a.data n.data b.data h

theorem strContains_append_of_left (a b n : String)
    (h : containsSub n.data a.data = true) :
    containsSub n.data (a ++ b).data = true := by
  rw [str_data_append]
  exact containsSub_append_right a.data n.data b.data h

theorem mem_enumFrom_get : ∀ (l : List String) (i n : Nat) (h : i < l.length),
    (n + i, l.get ⟨i, h⟩) ∈ l.enumFrom n := by
  intro l
  induction l with
  | nil => intro i n h; simp at h
  | cons x l' ih =>
    intro i n h
    cases i with
    | zero => simp [List.enumFrom]
    | succ i' =>
      have := ih i' (n + 1) (by simpa using Nat.lt_of_succ_lt_succ h)
      simp only [List.enumFrom, List.mem_cons]
      right
      simpa [show n + 1 + i' = n + (i' + 1) from by omega] using this

set_option maxRecDepth 1000000 in
/-- Claim C8: the synthesis prompt contains each summary under its
positional label `Section i+1: `, contains the title, and for the
example `["A","B"]` with title `Paper1` contains the literal labelled
lines and the six fixed markdown section headings. -/
theorem synthesis_prompt_labels :
    (∀ (ss : List String) (title : String) (i : Nat) (hi : i < ss.length),
      strContains (synthesis_prompt ss title)
        ("Section " ++ toString (i + 1) ++ ": " ++ ss.get ⟨i, hi⟩) = true) ∧
    (∀ (ss : List String) (title : String),
      strContains (synthesis_prompt ss title) title = true) ∧
    (strContains (synthesis_prompt ["A", "B"] "Paper1") "Section 1: A" = true ∧
     strContains (synthesis_prompt ["A", "B"] "Paper1") "Section 2: B" = true ∧
     strContains (synthesis_prompt ["A", "B"] "Paper1") "Paper1" = true ∧
     strContains (synthesis_prompt ["A", "B"] "Paper1") "## Summary" = true ∧
     strContains (synthesis_prompt ["A", "B"] "Paper1") "## Key Findings" = true ∧
     strContains (synthesis_prompt ["A", "B"] "Paper1") "## Main Concepts" = true ∧
     strContains (synthesis_prompt ["A", "B"] "Paper1") "## Methodology" = true ∧
     strContains (synthesis_prompt ["A", "B"] "Paper1") "## Implications" = true ∧
     strContains (synthesis_prompt ["A", "B"] "Paper1") "## Tags" = true) := by
  refine ⟨?_, ?_, ?_⟩
  · intro ss title i hi
    unfold strContains synthesis_prompt
    apply strContains_append_of_left
    apply strContains_append_of_right
    unfold combined_summaries
    apply containsSub_joinSep
    apply List.mem_map.mpr
    refine ⟨(i, ss.get ⟨i, hi⟩), ?_, rfl⟩
    unfold List.enum
    have := mem_enumFrom_get ss i 0 hi
    simpa using this
  · intro ss title
    unfold strContains synthesis_prompt
    apply strContains_append_of_left
    apply strContains_append_of_left
    apply strContains_append_of_left
    apply strContains_append_of_right
    have := subListAt_self_append title.data []
    rw [List.append_nil] at this
    exact containsSub_of_startsAt this
  · exact ⟨by decide, by decide, by decide, by decide, by decide, by decide,
      by decide, by decide, by decide⟩


set_option maxRecDepth 1000000 in
theorem synthesis_prompt_labels_witness :
    (0 : Nat) < (["A", "B"] : List String).length ∧
    strContains (synthesis_prompt ["A", "B"] "Paper1")
      ("Section " ++ toString (0 + 1) ++ ": "
        ++ (["A", "B"] : List String).get ⟨0, by decide⟩) = true :=
  ⟨by decide, synthesis_prompt_labels.1 ["A", "B"] "Paper1" 0 (by decide)⟩

/-! ### The C3 example input, symbolically -/

theorem joinSep_space_data : ∀ (l : List String),
    (joinSep " " l).data = sjoin (l.map String.data) := by
  intro l
  induction l with
  | nil => rfl
  | cons x l' ih =>
    cases l' with
    | nil => rfl
    | cons y l'' =>
      show ((x ++ " ") ++ joinSep " " (y :: l'')).data = _
      rw [str_data_append, str_data_append, ih]
      show x.data ++ (" ").data ++ sjoin ((y :: l'').map String.data)
        = sjoin (x.data :: (y :: l'').map String.data)
      rw [sjoin_cons_of_ne_nil (by simp)]
      simp

theorem ws901_ok : wordsOk ws901 := by
  intro w hw
  unfold ws901 at hw
  rcases List.mem_append.mp hw with hw | hw
  · rcases List.mem_replicate.mp hw with ⟨-, rfl⟩
    exact ⟨by decide, by decide⟩
  · simp only [List.mem_singleton] at hw
    subst hw
    exact ⟨by decide, by decide⟩

theorem replicate_ne_nil_of_pos {α : Type} {n : Nat} {a : α} (h : 0 < n) :
    List.replicate n a ≠ [] := by
  intro hnil
  have hlen := congrArg List.length hnil
  rw [List.length_replicate] at hlen
  simp only [List.length_nil] at hlen
  omega

theorem ws901_length : ws901.length = 901 := by
  unfold ws901
  rw [List.length_append, List.length_replicate]
  rfl

theorem wordsChars_bodyLine : wordsChars bodyLine = ws901 :=
  sjoin_roundtrip ws901 ws901_ok

theorem bodyLine_no_nl : ∀ c ∈ bodyLine, c ≠ '\n' := by
  intro c hc
  rcases sjoin_mem_char ws901 c hc with rfl | ⟨w, hw, hcw⟩
  · decide
  · have hws := (ws901_ok w hw).2 c hcw
    intro h
    rw [h] at hws
    exact absurd hws (by decide)

theorem bodyLine_eq_cons : bodyLine
    = 'w' :: (("ord").data ++ ' ' :: sjoin (List.replicate 899 wd ++ [ed])) := by
  have h900 : List.replicate 900 wd = wd :: List.replicate 899 wd := rfl
  have hws : ws901 = wd :: (List.replicate 899 wd ++ [ed]) := by
    unfold ws901
    rw [h900, List.cons_append]
  have hne : List.replicate 899 wd ++ [ed] ≠ [] := by
    intro hnil
    have := congrArg List.length hnil
    rw [List.length_append, List.length_replicate] at this
    simp only [List.length_nil] at this
    omega
  show sjoin ws901 = _
  rw [hws, sjoin_cons_of_ne_nil hne]
  rfl

theorem bodyLine_split : bodyLine = sjoin (List.replicate 900 wd) ++ ' ' :: ed := by
  unfold bodyLine ws901
  rw [sjoin_append_singleton _ _ (replicate_ne_nil_of_pos (by omega))]

theorem bodyLine_ne_nil : bodyLine ≠ [] := by
  rw [bodyLine_eq_cons]
  exact List.cons_ne_nil _ _

theorem stripChars_bodyLine : stripChars bodyLine = bodyLine := by
  apply stripChars_eq_self
  · intro a ha
    rw [bodyLine_eq_cons] at ha
    simp only [List.head?_cons, Option.some_inj] at ha
    subst ha
    decide
  · intro a ha
    rw [bodyLine_split, List.getLast?_append] at ha
    rw [show (' ' :: ed).getLast? = some 'd' from by decide] at ha
    rw [show (some 'd').or ((sjoin (List.replicate 900 wd)).getLast?) = some 'd' from rfl]
      at ha
    simp only [Option.some_inj] at ha
    subst ha
    decide

theorem paraSplitFuel_lead : ∀ (pre : List Char) (fuel : Nat) (cur l : List Char),
    (∀ c ∈ pre, c ≠ '\n') →
    paraSplitFuel (pre.length + fuel) cur (pre ++ l)
      = paraSplitFuel fuel (pre.reverse ++ cur) l := by
  intro pre
  induction pre with
  | nil => intro fuel cur l _; simp
  | cons p pre' ih =>
    intro fuel cur l h
    have hp : p ≠ '\n' := h p (by simp)
    show paraSplitFuel ((p :: pre').length + fuel) cur (p :: (pre' ++ l)) = _
    rw [show (p :: pre').length + fuel = (pre'.length + fuel) + 1 from by
      rw [List.length_cons]; omega]
    simp only [paraSplitFuel, if_neg hp]
    rw [ih fuel (p :: cur) l (fun d hd => h d (by simp [hd]))]
    simp

theorem ex3_data_eq : ex3.data = ("Intro").data ++ '\n' :: '\n' :: bodyLine := by
  show (("Intro\n\n" ++ joinSep " " (List.replicate 900 "word")) ++ " end").data = _
  rw [str_data_append, str_data_append, joinSep_space_data, List.map_replicate]
  rw [show ("word").data = wd from rfl]
  rw [bodyLine_split]
  rw [show ("Intro\n\n").data = ("Intro").data ++ ['\n', '\n'] from by decide]
  rw [show (" end").data = ' ' :: ed from rfl]
  rw [List.append_assoc, List.append_assoc]
  rfl

theorem ex3_splitNl : splitNl ex3.data = [("Intro").data, [], bodyLine] := by
  rw [ex3_data_eq]
  rw [splitNl_append_nl ("Intro").data ('\n' :: bodyLine) (by decide)]
  rw [splitNl_cons_nl bodyLine]
  rw [splitNl_no_nl bodyLine_no_nl]

theorem bodyLine_not_header : is_potential_header bodyLine = false := by
  unfold is_potential_header
  rw [show (wordsChars bodyLine).length = 901 from by rw [wordsChars_bodyLine, ws901_length]]
  rw [show (decide ((901 : Nat) ≤ 8)) = false from by decide]
  rw [Bool.false_and, Bool.false_and, Bool.false_and, Bool.false_and, Bool.false_and]

theorem ex3_header_sections :
    header_sections ex3.data = ([], [("Intro").data, bodyLine]) := by
  unfold header_sections
  rw [ex3_splitNl]
  rw [List.foldl_cons, List.foldl_cons, List.foldl_cons, List.foldl_nil]
  rw [show headerStep ([], []) (("Intro").data) = ([], [("Intro").data]) from by decide]
  rw [show headerStep ([], [("Intro").data]) [] = ([], [("Intro").data]) from by decide]
  have h3 : headerStep ([], [("Intro").data]) bodyLine
      = ([], [("Intro").data, bodyLine]) := by
    simp only [headerStep]
    rw [stripChars_bodyLine]
    rw [if_neg bodyLine_ne_nil, bodyLine_not_header]
    simp
  rw [h3]

theorem ex3_sections : sectionsOf ex3.data =
    [⟨("Final Section").data, stripChars (sjoin [("Intro").data, bodyLine])⟩] := by
  unfold sectionsOf
  rw [ex3_header_sections]
  show (if ([("Intro").data, bodyLine] : List (List Char)) = [] then ([] : List PSection)
      else []
        ++ [⟨("Final Section").data, stripChars (sjoin [("Intro").data, bodyLine])⟩]) = _
  rw [if_neg (show ¬ (([("Intro").data, bodyLine] : List (List Char)) = []) from by simp)]
  rfl

theorem ex3_blankMatch : blankMatch ('\n' :: bodyLine) = some bodyLine := by
  unfold blankMatch
  have ht : ('\n' :: bodyLine).takeWhile pyWs = ['\n'] := by
    rw [List.takeWhile_cons_of_pos (by decide)]
    rw [bodyLine_eq_cons]
    rw [List.takeWhile_cons_of_neg (by decide)]
  have hd : ('\n' :: bodyLine).dropWhile pyWs = bodyLine := by
    rw [List.dropWhile_cons_of_pos (by decide)]
    conv_lhs => rw [bodyLine_eq_cons]
    rw [List.dropWhile_cons_of_neg (by decide)]
    exact bodyLine_eq_cons.symm
  rw [ht, hd]
  rfl

theorem paraSplitFuel_step_match (fuel : Nat) (cur cs : List Char) {rest : List Char}
    (hm : blankMatch cs = some rest) :
    paraSplitFuel (fuel + 1) cur ('\n' :: cs)
      = cur.reverse :: paraSplitFuel fuel [] rest := by
  show (if '\n' = '\n' then
      match blankMatch cs with
      | some rest => cur.reverse :: paraSplitFuel fuel [] rest
      | none => paraSplitFuel fuel ('\n' :: cur) cs
    else paraSplitFuel fuel ('\n' :: cur) cs) = _
  rw [if_pos rfl, hm]

theorem ex3_paraSplit : paraSplit ex3.data = [("Intro").data, bodyLine] := by
  unfold paraSplit
  rw [ex3_data_eq]
  rw [show (("Intro").data ++ '\n' :: '\n' :: bodyLine).length
      = ("Intro").data.length + (bodyLine.length + 2) from by
    rw [List.length_append]
    simp only [List.length_cons]]
  rw [paraSplitFuel_lead ("Intro").data (bodyLine.length + 2) []
    ('\n' :: '\n' :: bodyLine) (by decide)]
  rw [show bodyLine.length + 2 = (bodyLine.length + 1) + 1 from by omega]
  rw [paraSplitFuel_step_match (bodyLine.length + 1) (("Intro").data.reverse ++ [])
    ('\n' :: bodyLine) ex3_blankMatch]
  rw [paraSplitFuel_no_nl (bodyLine.length + 1) bodyLine [] bodyLine_no_nl (by omega)]
  simp only [List.append_nil, List.reverse_reverse, List.reverse_nil, List.nil_append]

theorem ex3_paraSections : paraSections ex3.data
    = [⟨("Section 1").data, ("Intro").data⟩, ⟨("Section 2").data, bodyLine⟩] := by
  unfold paraSections
  rw [ex3_paraSplit]
  rw [show ([("Intro").data, bodyLine] : List (List Char)).enum
      = [(0, ("Intro").data), (1, bodyLine)] from rfl]
  rw [List.filterMap_cons, List.filterMap_cons, List.filterMap_nil]
  simp only []
  rw [show stripChars (("Intro").data) = ("Intro").data from by decide, stripChars_bodyLine]
  rw [if_neg (show ¬ ((("Intro").data : List Char) = []) from by decide)]
  rw [if_neg bodyLine_ne_nil]
  simp only []
  rw [show ("Section " ++ toString ((0 : Nat) + 1)).data = ("Section 1").data from by decide]
  rw [show ("Section " ++ toString ((1 : Nat) + 1)).data = ("Section 2").data from by decide]

theorem ex3_split_long : split_long_content bodyLine (("Section 2").data)
    = [⟨0, ("Section 2 (Part 1)").data, sjoin (List.replicate 800 wd), 800⟩,
       ⟨1, ("Section 2 (Part 2)").data, sjoin (List.replicate 200 wd ++ [ed]), 201⟩] := by
  unfold split_long_content
  simp only []
  rw [wordsChars_bodyLine, ws901_length]
  rw [show (901 : Nat) = 900 + 1 from rfl]
  rw [splitLongFuel_cons_eq (by rw [ws901_length]; decide) (by rw [ws901_length]; decide)]
  rw [show nextStart max_chunk_size overlap_size 0 = 700 from by decide]
  rw [show (900 : Nat) = 899 + 1 from rfl]
  rw [splitLongFuel_single (by rw [ws901_length]; decide) (by rw [ws901_length]; decide)]
  have hw1 : (ws901.drop 0).take max_chunk_size = List.replicate 800 wd := by
    rw [List.drop_zero]
    unfold ws901
    rw [List.take_append_of_le_length (by rw [List.length_replicate]; decide)]
    rw [List.take_replicate]
    rw [show min max_chunk_size 900 = 800 from by decide]
  have hw2 : (ws901.drop 700).take max_chunk_size = List.replicate 200 wd ++ [ed] := by
    unfold ws901
    rw [List.drop_append_of_le_length (by rw [List.length_replicate]; decide)]
    rw [List.drop_replicate]
    rw [show (900 : Nat) - 700 = 200 from rfl]
    rw [List.take_of_length_le (by
      rw [List.length_append, List.length_replicate]
      decide)]
  rw [hw1, hw2]
  rw [show (List.replicate 800 wd).length = 800 from by rw [List.length_replicate]]
  rw [show (List.replicate 200 wd ++ [ed]).length = 201 from by
    rw [List.length_append, List.length_replicate]
    rfl]
  rw [show ("Section 2").data ++ partLabel 1 = ("Section 2 (Part 1)").data from by decide]
  rw [show ("Section 2").data ++ partLabel 2 = ("Section 2 (Part 2)").data from by decide]

theorem ex3_chunks_eq : split_into_chunks ex3 =
    [⟨0, ("Section 1").data, ("Intro").data, 1⟩,
     ⟨0, ("Section 2 (Part 1)").data, sjoin (List.replicate 800 wd), 800⟩,
     ⟨1, ("Section 2 (Part 2)").data, sjoin (List.replicate 200 wd ++ [ed]), 201⟩] := by
  unfold split_into_chunks
  simp only []
  rw [ex3_sections]
  rw [if_pos (by simp : ([⟨("Final Section").data,
    stripChars (sjoin [("Intro").data, bodyLine])⟩] : List PSection).length ≤ 1)]
  rw [ex3_paraSections]
  unfold chunksOfSections
  rw [List.foldl_cons, List.foldl_cons, List.foldl_nil]
  rw [show chunkStep [] ⟨("Section 1").data, ("Intro").data⟩
      = [⟨0, ("Section 1").data, ("Intro").data, 1⟩] from by decide]
  simp only [chunkStep]
  rw [wordsChars_bodyLine, ws901_length]
  rw [if_neg (show ¬ ((901 : Nat) ≤ max_chunk_size) from by decide)]
  rw [ex3_split_long]
  rfl

/-- Claim C3 (amended): on the example input, the fallback paragraph
split yields two sections (`Intro` and the 901-word paragraph); the
result is three chunks: `Section 1`/`Intro`, then the oversized second
paragraph overlap-split into `Section 2 (Part 1)` = words 1-800 and
`Section 2 (Part 2)` = words 701-901 (words 701-800 duplicated), with
the sub-chunk identifiers restarting at 0. -/
theorem overlap_example_corrected : split_into_chunks ex3 =
    [⟨0, ("Section 1").data, ("Intro").data, 1⟩,
     ⟨0, ("Section 2 (Part 1)").data, sjoin (List.replicate 800 wd), 800⟩,
     ⟨1, ("Section 2 (Part 2)").data, sjoin (List.replicate 200 wd ++ [ed]), 201⟩] :=
  ex3_chunks_eq

/-- Claim C3, counterexample: the example input yields three chunks,
not two, and no chunk carries the header `Final Section (Part 1)`. -/
theorem overlap_example_cex :
    (split_into_chunks ex3).length = 3 ∧
    ¬ ∃ c ∈ split_into_chunks ex3, c.header = ("Final Section (Part 1)").data := by
  rw [ex3_chunks_eq]
  constructor
  · rfl
  · decide

/-- Claim C4 evaluated at a failing input: on the example input the
chunk identifiers are `[0, 0, 1]` — `_split_long_content` numbers its
sub-chunks from its own local list, so identifiers are neither the
running count across the document nor unique. -/
theorem chunk_ids_not_sequential :
    (split_into_chunks ex3).map Chunk.chunk_id = [0, 0, 1] ∧
    (split_into_chunks ex3).map Chunk.chunk_id ≠ [0, 1, 2] := by
  rw [ex3_chunks_eq]
  constructor
  · rfl
  · decide
